import Mathlib

/-!
# govc/importx/archive.go

A shallow embedding of the archive access layer of `govc/importx`:
`isRemotePath`, `Opener.OpenLocal`, `Opener.OpenFile`, `Opener.OpenRemote`,
`FileArchive.Open`, `TapeArchive.Open`, `TapeArchiveEntry.Close` and
`ArchiveFlag.readManifest`.

Go strings are byte sequences. Effects (opening, closing, downloading,
printing) are recorded in an event log that every effectful function threads
through. The standard library functions the code calls (`strings`, `path`,
`path/filepath`, `unicode/utf8`) are embedded from the Go standard library
(Go 1.16 and later), the operating system and the network are parameters
(`Env`).
-/

set_option autoImplicit false

/-- A Go string: an immutable sequence of bytes. -/
abbrev GoString := List Nat

/-- UTF-8 encoding of one code point, used to write string literals. -/
def encodeRune (c : Nat) : GoString :=
  if c < 0x80 then [c]
  else if c < 0x800 then [0xC0 + c / 64, 0x80 + c % 64]
  else if c < 0x10000 then [0xE0 + c / 4096, 0x80 + c / 64 % 64, 0x80 + c % 64]
  else [0xF0 + c / 262144, 0x80 + c / 4096 % 64, 0x80 + c / 64 % 64, 0x80 + c % 64]

/-- The Go string a source literal denotes (its UTF-8 bytes). -/
def str (s : String) : GoString :=
  s.toList.foldr (fun c acc => encodeRune c.toNat ++ acc) []

/-- Go error values that the code creates, compares with or passes on. -/
inductive Error where
  /-- The value of io.EOF. -/
  | EOF
  /-- The value of os.ErrNotExist. -/
  | ErrNotExist
  /-- The value of path.ErrBadPattern. -/
  | ErrBadPattern
  /-- The value of errors.New(msg). -/
  | New (msg : String)
  /-- Any other error of a collaborator (operating system, tar framing, network). -/
  | other (code : Nat)
  deriving DecidableEq, Repr

deriving instance DecidableEq for Except

namespace utf8

/-- The constant utf8.RuneError. -/
def RuneError : Nat := 0xFFFD

/-- Go: utf8.DecodeRuneInString, returning the rune and its width in bytes. -/
def DecodeRuneInString (s : GoString) : Nat × Nat :=
  match s with
  | [] => (RuneError, 0)
  | s0 :: t =>
    if s0 < 0x80 then (s0, 1)
    else if s0 < 0xC2 ∨ 0xF4 < s0 then (RuneError, 1)
    else
      let sz := if s0 < 0xE0 then 2 else if s0 < 0xF0 then 3 else 4
      let lo := if s0 = 0xE0 then 0xA0 else if s0 = 0xF0 then 0x90 else 0x80
      let hi := if s0 = 0xED then 0x9F else if s0 = 0xF4 then 0x8F else 0xBF
      if s.length < sz then (RuneError, 1)
      else
        let s1 := t.getD 0 0
        if s1 < lo ∨ hi < s1 then (RuneError, 1)
        else if sz ≤ 2 then (s0 % 32 * 64 + s1 % 64, 2)
        else
          let s2 := t.getD 1 0
          if s2 < 0x80 ∨ 0xBF < s2 then (RuneError, 1)
          else if sz ≤ 3 then (s0 % 16 * 4096 + s1 % 64 * 64 + s2 % 64, 3)
          else
            let s3 := t.getD 2 0
            if s3 < 0x80 ∨ 0xBF < s3 then (RuneError, 1)
            else (s0 % 8 * 262144 + s1 % 64 * 4096 + s2 % 64 * 64 + s3 % 64, 4)

/-- Go: utf8.RuneCountInString, by repeated decoding. -/
def RuneCountInString : Nat → GoString → Nat
  | _, [] => 0
  | 0, _ :: _ => 0
  | fuel + 1, c :: s => 1 + RuneCountInString fuel ((c :: s).drop (DecodeRuneInString (c :: s)).2)

end utf8

namespace strings

/-- Go: strings.HasPrefix, `len(s) >= len(prefix) && s[:len(prefix)] == prefix`. -/
def HasPrefix (s pre : GoString) : Bool :=
  decide (pre.length ≤ s.length) && (s.take pre.length == pre)

/-- Go: strings.Index (first position of `substr` in `s`, or -1), scanning
positions in increasing order; `i` is the position of `s` in the whole string. -/
def Index.loop (substr : GoString) : GoString → Nat → Int
  | [], i => if HasPrefix [] substr then (i : Int) else -1
  | c :: s, i => if HasPrefix (c :: s) substr then (i : Int) else Index.loop substr s (i + 1)

/-- Go: strings.Index. -/
def Index (s substr : GoString) : Int := Index.loop substr s 0

/-- Go: strings.LastIndex, scanning the candidate positions from the highest
one down to 0. -/
def LastIndex.loop (s substr : GoString) : Nat → Int
  | 0 => if HasPrefix s substr then 0 else -1
  | i + 1 => if HasPrefix (s.drop (i + 1)) substr then ((i + 1 : Nat) : Int)
             else LastIndex.loop s substr i

/-- Go: strings.LastIndex (last position of `substr` in `s`, or -1). -/
def LastIndex (s substr : GoString) : Int :=
  if s.length < substr.length then -1
  else LastIndex.loop s substr (s.length - substr.length)

/-- Go: strings.Count for a non-empty `substr`: non-overlapping occurrences. -/
def Count.loop (substr : GoString) : Nat → GoString → Nat → Nat
  | 0, _, n => n
  | fuel + 1, s, n =>
    if Index s substr = -1 then n
    else Count.loop substr fuel (s.drop ((Index s substr).toNat + substr.length)) (n + 1)

/-- Go: strings.Count. -/
def Count (s substr : GoString) : Nat :=
  if substr.length = 0 then utf8.RuneCountInString s.length s + 1
  else Count.loop substr (s.length + 1) s 0

/-- The replacement loop of strings.Replace: `n` iterations left, `i` the
iteration counter, `start` the read position, `b` the builder. -/
def Replace.loop (s old new : GoString) : Nat → Nat → Nat → GoString → GoString
  | 0, _, start, b => b ++ s.drop start
  | n + 1, i, start, b =>
    let j :=
      if old.length = 0 then
        (if 0 < i then start + (utf8.DecodeRuneInString (s.drop start)).2 else start)
      else start + (Index (s.drop start) old).toNat
    Replace.loop s old new n (i + 1) (j + old.length)
      (b ++ (s.drop start).take (j - start) ++ new)

/-- Go: strings.Replace(s, old, new, n). -/
def Replace (s old new : GoString) (n : Int) : GoString :=
  if old = new ∨ n = 0 then s
  else
    let m := Count s old
    if m = 0 then s
    else
      let n1 : Nat := if n < 0 ∨ (m : Int) < n then m else n.toNat
      Replace.loop s old new n1 0 0 []

end strings

/-- Strip trailing slashes: `for len(p) > 0 && p[len(p)-1] == sep { p = p[:len(p)-1] }`. -/
def stripTrailingSlashes (p : GoString) : GoString :=
  (p.reverse.dropWhile (fun c => c == 47)).reverse

namespace path

/-- Go: path.Base. -/
def Base (p : GoString) : GoString :=
  if p = [] then str "."
  else
    let p1 := stripTrailingSlashes p
    let i := strings.LastIndex p1 (str "/")
    let p2 := if 0 ≤ i then p1.drop (i.toNat + 1) else p1
    if p2 = [] then str "/" else p2

end path

namespace filepath

/-- Go: filepath.Base on a Unix system (separator "/", no volume name). -/
def Base (p : GoString) : GoString :=
  if p = [] then str "."
  else
    let p1 := stripTrailingSlashes p
    let i := strings.LastIndex p1 (str "/")
    let p2 := if 0 ≤ i then p1.drop (i.toNat + 1) else p1
    if p2 = [] then str "/" else p2

/-- The loop of filepath.Ext: `i` counts down over the positions below it. -/
def Ext.loop (p : GoString) : Nat → GoString
  | 0 => []
  | i + 1 =>
    if p.getD i 0 = 47 then []
    else if p.getD i 0 = 46 then p.drop i
    else Ext.loop p i

/-- Go: filepath.Ext on a Unix system. -/
def Ext (p : GoString) : GoString := Ext.loop p p.length

end filepath

namespace path

/-- Go: getEsc of path/match.go, a possibly escaped character of a character
class; the result is the rune and the rest of the chunk. -/
def getEsc (chunk : GoString) : Except Error (Nat × GoString) :=
  match chunk with
  | [] => .error Error.ErrBadPattern
  | c :: rest =>
    if c = 45 ∨ c = 93 then .error Error.ErrBadPattern
    else if c = 92 ∧ rest = [] then .error Error.ErrBadPattern
    else
      let chunk1 := if c = 92 then rest else c :: rest
      let rn := utf8.DecodeRuneInString chunk1
      if rn.1 = utf8.RuneError ∧ rn.2 = 1 then .error Error.ErrBadPattern
      else if chunk1.drop rn.2 = [] then .error Error.ErrBadPattern
      else .ok (rn.1, chunk1.drop rn.2)

/-- The range loop of matchChunk, after "[" and an optional "^": `r` is the
rune of the name, `mtch` and `nrange` the loop variables. The result is the
rest of the chunk after "]" and `mtch`; `none` only when the fuel ran out. -/
def matchChunk.ranges : Nat → GoString → Nat → Bool → Nat →
    Option (Except Error (GoString × Bool))
  | 0, _, _, _, _ => none
  | fuel + 1, chunk, r, mtch, nrange =>
    if chunk.head? = some 93 ∧ 0 < nrange then some (.ok (chunk.tail, mtch))
    else
      match getEsc chunk with
      | .error e => some (.error e)
      | .ok (lo, chunk1) =>
        if chunk1.head? = some 45 then
          match getEsc chunk1.tail with
          | .error e => some (.error e)
          | .ok (hi, chunk2) =>
            matchChunk.ranges fuel chunk2 r (mtch || (decide (lo ≤ r) && decide (r ≤ hi)))
              (nrange + 1)
        else
          matchChunk.ranges fuel chunk1 r (mtch || (decide (lo ≤ r) && decide (r ≤ lo)))
            (nrange + 1)

/-- The loop of matchChunk (Go 1.16 and later): after the match has failed the
chunk is still scanned for syntax errors, the name is no longer read. The
result is `.ok (some rest)` for `(rest, true, nil)`, `.ok none` for
`("", false, nil)` and `.error e` for `("", false, e)`; `none` only when the
fuel ran out. -/
def matchChunk.loop : Nat → GoString → GoString → Bool →
    Option (Except Error (Option GoString))
  | _, [], s, failed => some (.ok (if failed then none else some s))
  | 0, _ :: _, _, _ => none
  | fuel + 1, c :: chunk, s, failed0 =>
    let failed := failed0 || s.isEmpty
    if c = 91 then
      let r := if failed then 0 else (utf8.DecodeRuneInString s).1
      let s1 := if failed then s else s.drop (utf8.DecodeRuneInString s).2
      let negated := decide (chunk.head? = some 94)
      let chunk1 := if negated then chunk.tail else chunk
      match matchChunk.ranges (chunk1.length + 1) chunk1 r false 0 with
      | none => none
      | some (.error e) => some (.error e)
      | some (.ok (chunk2, mtch)) =>
        matchChunk.loop fuel chunk2 s1 (failed || (mtch == negated))
    else if c = 63 then
      if failed then matchChunk.loop fuel chunk s true
      else
        matchChunk.loop fuel chunk (s.drop (utf8.DecodeRuneInString s).2)
          (decide (s.head? = some 47))
    else if c = 92 then
      match chunk with
      | [] => some (.error Error.ErrBadPattern)
      | c1 :: chunk1 =>
        if failed then matchChunk.loop fuel chunk1 s true
        else matchChunk.loop fuel chunk1 s.tail (decide (s.head? ≠ some c1))
    else
      if failed then matchChunk.loop fuel chunk s true
      else matchChunk.loop fuel chunk s.tail (decide (s.head? ≠ some c))

/-- Go: matchChunk of path/match.go, as an outcome that may be out of fuel. -/
def matchChunk (chunk s : GoString) : Option (Except Error (Option GoString)) :=
  matchChunk.loop chunk.length chunk s false

/-- The first loop of scanChunk: strip the leading stars. -/
def scanChunk.stars : GoString → Bool → Bool × GoString
  | [], star => (star, [])
  | c :: p, star => if c = 42 then scanChunk.stars p true else (star, c :: p)

/-- The second loop of scanChunk: the index `i` at which the chunk ends; the
list is `pattern[i:]`. -/
def scanChunk.scan : GoString → Bool → Nat → Nat
  | [], _, i => i
  | c :: p, inrange, i =>
    if c = 92 then
      match p with
      | [] => i + 1
      | _ :: p1 => scanChunk.scan p1 inrange (i + 2)
    else if c = 91 then scanChunk.scan p true (i + 1)
    else if c = 93 then scanChunk.scan p false (i + 1)
    else if c = 42 then (if inrange then scanChunk.scan p inrange (i + 1) else i)
    else scanChunk.scan p inrange (i + 1)

/-- Go: scanChunk of path/match.go: `(star, chunk, rest)`. -/
def scanChunk (pattern : GoString) : Bool × GoString × GoString :=
  let sp := scanChunk.stars pattern false
  let i := scanChunk.scan sp.2 false 0
  (sp.1, sp.2.take i, sp.2.drop i)

/-- The last loop of Match: before returning false with no error, check that
the remainder of the pattern is syntactically valid. -/
def Match.check : Nat → GoString → Option (Except Error Bool)
  | _, [] => some (.ok false)
  | 0, _ :: _ => none
  | fuel + 1, c :: p =>
    match matchChunk (scanChunk (c :: p)).2.1 [] with
    | none => none
    | some (.error e) => some (.error e)
    | some (.ok _) => Match.check fuel (scanChunk (c :: p)).2.2

/-- Outcome of the star loop of Match. -/
inductive StarResult where
  /-- The chunk matched after skipping: `continue Pattern` with this name. -/
  | found (t : GoString)
  /-- The chunk reported a syntax error. -/
  | bad (e : Error)
  /-- The loop ended without a match. -/
  | none
  /-- The model ran out of fuel. -/
  | fuel

/-- The star loop of Match: look for a match skipping i+1 bytes; "/" cannot be
skipped. The list is `name[i:]`, `last` is `len(pattern) == 0`. -/
def Match.star (chunk : GoString) (last : Bool) : GoString → StarResult
  | [] => StarResult.none
  | c :: name =>
    if c = 47 then StarResult.none
    else
      match matchChunk chunk name with
      | none => StarResult.fuel
      | some (.error e) => StarResult.bad e
      | some (.ok none) => Match.star chunk last name
      | some (.ok (some t)) =>
        if last && decide (0 < t.length) then Match.star chunk last name
        else StarResult.found t

/-- The Pattern loop of Match; `none` only when the fuel ran out. -/
def Match.loop : Nat → GoString → GoString → Option (Except Error Bool)
  | _, [], name => some (.ok (decide (name.length = 0)))
  | 0, _ :: _, _ => none
  | fuel + 1, c :: p, name =>
    let star := (scanChunk (c :: p)).1
    let chunk := (scanChunk (c :: p)).2.1
    let pattern := (scanChunk (c :: p)).2.2
    if star && decide (chunk = []) then some (.ok (decide (47 ∉ name)))
    else
      match matchChunk chunk name with
      | none => none
      | some (.error e) => some (.error e)
      | some (.ok r) =>
        match (match r with
               | some t => if decide (t.length = 0) || decide (0 < pattern.length)
                           then some t else none
               | none => none) with
        | some t => Match.loop fuel pattern t
        | none =>
          if star then
            match Match.star chunk (decide (pattern.length = 0)) name with
            | StarResult.found t => Match.loop fuel pattern t
            | StarResult.bad e => some (.error e)
            | StarResult.fuel => none
            | StarResult.none => Match.check fuel pattern
          else Match.check fuel pattern

/-- Go: path.Match(pattern, name). The fuel is the length of the pattern,
which every iteration of the Pattern loop shortens (theorem
`Match_loop_fuel`), so the last case is never taken. -/
def Match (pattern name : GoString) : Except Error Bool :=
  match Match.loop pattern.length pattern name with
  | some r => r
  | none => .ok false

end path

namespace importx

/-! ## The world outside: streams, the event log, the collaborators -/

/-- One entry of a tar archive as archive/tar presents it: the header's name
and declared size, and the content bytes. -/
structure TarEntry where
  Name : GoString
  Size : Int
  data : GoString
  deriving DecidableEq, Repr

/-- An open byte stream (an io.ReadCloser handed out by the operating system
or the download transport). `entries` and `tail` are what a tar reader finds
in it: the entries in archive order, then `tail`, the error of the call of
Next after the last entry (io.EOF for a well framed archive). `closeErr` is
what its Close returns. -/
structure Stream where
  id : Nat
  entries : List TarEntry
  tail : Error
  closeErr : Option Error
  deriving DecidableEq, Repr

/-- An effect on the world outside the program. -/
inductive Event where
  /-- A call of os.Open with this (cleaned) path. -/
  | Open (name : GoString)
  /-- A call of the download transport with this URL. -/
  | Download (u : GoString)
  /-- A call of Close on the stream with this id. -/
  | Close (id : Nat)
  /-- A line printed on os.Stderr. -/
  | Stderr (msg : String)
  deriving DecidableEq, Repr

/-- The log of effects so far, oldest first. -/
abbrev World := List Event

/-- How often the stream `id` has been closed. -/
def closeCount (id : Nat) (w : World) : Nat := w.count (Event.Close id)

/-- How often the download transport has been invoked. -/
def downloadCount (w : World) : Nat :=
  (w.filter (fun e => match e with
                      | Event.Download _ => true
                      | _ => false)).length

/-- How often os.Open has been called: the accesses to the local file system. -/
def openCount (w : World) : Nat :=
  (w.filter (fun e => match e with
                      | Event.Open _ => true
                      | _ => false)).length

/-- Go: Close on a stream: one more Close event, the stream's own result. -/
def Stream.Close (f : Stream) (w : World) : Option Error × World :=
  (f.closeErr, w ++ [Event.Close f.id])

/-- A Go result `(v, n, err)` of type `(io.ReadCloser, int64, error)`:
`ok v n` is `(v, n, nil)`, `fail n err` is `(nil, n, err)`. -/
inductive Ret (α : Type) where
  | ok (v : α) (n : Int)
  | fail (n : Int) (err : Error)
  deriving DecidableEq, Repr

/-- The first component of a result: the stream, nil on failure. -/
def Ret.val {α : Type} : Ret α → Option α
  | Ret.ok v _ => some v
  | Ret.fail _ _ => none

/-- The second component of a result: the length. -/
def Ret.n {α : Type} : Ret α → Int
  | Ret.ok _ n => n
  | Ret.fail n _ => n

/-- The third component of a result: the error, nil on success. -/
def Ret.err {α : Type} : Ret α → Option Error
  | Ret.ok _ _ => none
  | Ret.fail _ e => some e

namespace vim25

/-- Go: vim25.Client, the session the download transport is bound to. -/
structure Client where
  id : Nat
  deriving DecidableEq, Repr

end vim25

/-- A parsed manifest: entry name and checksum. -/
abbrev Manifest := List (GoString × GoString)

namespace tar

/-- Go: tar.Reader over a stream: the unread bytes of the current entry and
the entries not yet reached. -/
structure Reader where
  r : Stream
  cur : GoString
  rest : List TarEntry
  deriving DecidableEq, Repr

/-- Go: tar.NewReader. -/
def NewReader (f : Stream) : Reader := ⟨f, [], f.entries⟩

/-- Go: Reader.Next, advancing to the next entry; after the last entry it
reports the stream's `tail`. -/
def Reader.Next (r : Reader) : Except Error (TarEntry × Reader) :=
  match r.rest with
  | [] => .error r.r.tail
  | h :: rest => .ok (h, ⟨r.r, h.data, rest⟩)

/-- Go: ioutil.ReadAll on a tar reader: the unread bytes of the current entry. -/
def Reader.ReadAll (r : Reader) : GoString := r.cur

end tar

/-- The collaborators outside this file: the file system, the URL parser,
the download transport, the manifest parser and the message formatter. -/
structure Env where
  /-- Go: filepath.Clean. -/
  Clean : GoString → GoString
  /-- Go: os.Open. -/
  osOpen : GoString → Except Error Stream
  /-- Go: the size reported by Stat on an open file. -/
  Stat : Stream → Except Error Int
  /-- Go: url.Parse. -/
  Parse : GoString → Except Error GoString
  /-- Go: Client.Download with soap.DefaultDownload. -/
  Download : vim25.Client → GoString → Ret Stream
  /-- Go: fmt.Sprintf("manifest %q: %s", mf, err). -/
  Sprintf : Error → String

/-! ## Opener -/

/-- Go: `type Opener struct { *vim25.Client }`; `none` is the nil client. -/
structure Opener where
  Client : Option vim25.Client
  deriving DecidableEq, Repr

/-- Go: isRemotePath. -/
def isRemotePath (path : GoString) : Bool :=
  if strings.HasPrefix path (str "http://") || strings.HasPrefix path (str "https://") then
    true
  else false

/-- Go: Opener.OpenLocal. -/
def Opener.OpenLocal (env : Env) (_o : Opener) (path : GoString) (w : World) :
    Ret Stream × World :=
  match env.osOpen (env.Clean path) with
  | .error err => (Ret.fail 0 err, w ++ [Event.Open (env.Clean path)])
  | .ok f =>
    match env.Stat f with
    | .error err => (Ret.fail 0 err, w ++ [Event.Open (env.Clean path)])
    | .ok size => (Ret.ok f size, w ++ [Event.Open (env.Clean path)])

/-- Go: Opener.OpenRemote. -/
def Opener.OpenRemote (env : Env) (o : Opener) (link : GoString) (w : World) :
    Ret Stream × World :=
  match o.Client with
  | none => (Ret.fail 0 (Error.New "remote path not supported"), w)
  | some c =>
    match env.Parse link with
    | .error err => (Ret.fail 0 err, w)
    | .ok u => (env.Download c u, w ++ [Event.Download u])

/-- Go: Opener.OpenFile. -/
def Opener.OpenFile (env : Env) (o : Opener) (path : GoString) (w : World) :
    Ret Stream × World :=
  if isRemotePath path then o.OpenRemote env path w
  else o.OpenLocal env path w

/-! ## FileArchive -/

/-- Go: `type FileArchive struct { Path string; Opener }`. -/
structure FileArchive where
  Path : GoString
  Opener : Opener
  deriving DecidableEq, Repr

/-- The variable `fpath` of FileArchive.Open when OpenFile is called. -/
def FileArchive.Open.fpath (t : FileArchive) (name : GoString) : GoString :=
  if name ≠ t.Path then
    let index := strings.LastIndex t.Path (str "/")
    if index ≠ -1 then t.Path.take index.toNat ++ str "/" ++ name
    else name
  else name

/-- Go: FileArchive.Open. -/
def FileArchive.Open (env : Env) (t : FileArchive) (name : GoString) (w : World) :
    Ret Stream × World :=
  t.Opener.OpenFile env (FileArchive.Open.fpath t name) w

/-! ## TapeArchive -/

/-- Go: `type TapeArchive struct { Path string; Opener }`. -/
structure TapeArchive where
  Path : GoString
  Opener : Opener
  deriving DecidableEq, Repr

/-- Go: `type TapeArchiveEntry struct { io.Reader; f io.Closer; Name string }`. -/
structure TapeArchiveEntry where
  Reader : tar.Reader
  f : Stream
  Name : GoString
  deriving DecidableEq, Repr

/-- Go: TapeArchiveEntry.Close. -/
def TapeArchiveEntry.Close (t : TapeArchiveEntry) (w : World) : Option Error × World :=
  t.f.Close w

/-- The scan of TapeArchive.Open from `for` to the final return, with `f` the
open archive stream and the list the entries the tar reader has not reached:
on the empty list `r.Next()` returns the stream's `tail`, otherwise the next
header. -/
def TapeArchive.Open.loop (name : GoString) (f : Stream) :
    List TarEntry → World → Ret TapeArchiveEntry × World
  | [], w =>
    if f.tail = Error.EOF then
      (Ret.fail 0 Error.ErrNotExist, (f.Close w).2)
    else (Ret.fail 0 f.tail, w)
  | h :: rest, w =>
    match path.Match name (path.Base h.Name) with
    | .error err => (Ret.fail 0 err, w)
    | .ok matched =>
      if matched then (Ret.ok ⟨⟨f, h.data, rest⟩, f, h.Name⟩ h.Size, w)
      else TapeArchive.Open.loop name f rest w

/-- Go: TapeArchive.Open. -/
def TapeArchive.Open (env : Env) (t : TapeArchive) (name : GoString) (w : World) :
    Ret TapeArchiveEntry × World :=
  match t.Opener.OpenFile env t.Path w with
  | (Ret.fail _ err, w1) => (Ret.fail 0 err, w1)
  | (Ret.ok f _, w1) => TapeArchive.Open.loop name f (tar.NewReader f).rest w1

/-! ## ArchiveFlag -/

/-- Go: the Archive interface; its implementations are the two of this file. -/
inductive Archive where
  | tape (t : TapeArchive)
  | file (t : FileArchive)
  deriving DecidableEq, Repr

/-- The io.ReadCloser an Archive hands out. -/
inductive ReadCloser where
  | stream (f : Stream)
  | entry (e : TapeArchiveEntry)
  deriving DecidableEq, Repr

/-- Go: Close on the io.ReadCloser of an Archive. -/
def ReadCloser.Close : ReadCloser → World → Option Error × World
  | ReadCloser.stream f, w => f.Close w
  | ReadCloser.entry e, w => e.Close w

/-- Go: Archive.Open, dispatched on the implementation. -/
def Archive.Open (env : Env) (a : Archive) (name : GoString) (w : World) :
    Ret ReadCloser × World :=
  match a with
  | Archive.tape t =>
    match t.Open env name w with
    | (Ret.ok e n, w1) => (Ret.ok (ReadCloser.entry e) n, w1)
    | (Ret.fail n err, w1) => (Ret.fail n err, w1)
  | Archive.file t =>
    match t.Open env name w with
    | (Ret.ok f n, w1) => (Ret.ok (ReadCloser.stream f) n, w1)
    | (Ret.fail n err, w1) => (Ret.fail n err, w1)

/-- Go: `type ArchiveFlag struct { Archive; manifest map[string]*library.Checksum }`. -/
structure ArchiveFlag where
  Archive : Archive
  manifest : Option Manifest

/-- The variable `mfName` of readManifest: the name it asks the archive for. -/
def ArchiveFlag.readManifest.mfName (fpath : GoString) : GoString :=
  let base := filepath.Base fpath
  let ext := filepath.Ext base
  strings.Replace base ext (str ".mf") 1

/-- Go: ArchiveFlag.readManifest, with library.ReadManifest as a parameter. -/
def ArchiveFlag.readManifest (env : Env)
    (ReadManifest : ReadCloser → Option Manifest × Option Error)
    (f : ArchiveFlag) (fpath : GoString) (w : World) :
    Option Error × ArchiveFlag × World :=
  match f.Archive.Open env (ArchiveFlag.readManifest.mfName fpath) w with
  | (Ret.fail _ err, w1) =>
    (some (Error.New (env.Sprintf err)), f, w1 ++ [Event.Stderr (env.Sprintf err)])
  | (Ret.ok mf _, w1) =>
    ((ReadManifest mf).2, ⟨f.Archive, (ReadManifest mf).1⟩, (mf.Close w1).2)

/-! ## Helpers for the statements -/

/-- What an outcome says about the syntax of the pattern: out of fuel,
a syntax error, or none. -/
def errOf {α : Type} : Option (Except Error α) → Option (Option Error)
  | none => none
  | some (.error e) => some (some e)
  | some (.ok _) => some none

/-- The rest of the chunk after a character class, whatever the class matched. -/
def restOf : Option (Except Error (GoString × Bool)) → Option (Except Error GoString)
  | none => none
  | some (.error e) => some (.error e)
  | some (.ok (c, _)) => some (.ok c)

/-- The glob pattern is malformed: path.Match reports the syntax error
ErrBadPattern for it. -/
def Malformed (P : GoString) : Prop :=
  ∃ s : GoString, path.Match P s = .error Error.ErrBadPattern

/-- The glob pattern is well formed: path.Match reports no error for it. -/
def WellFormed (P : GoString) : Prop :=
  ∀ (s : GoString) (e : Error), path.Match P s ≠ .error e

/-! ## A small world for concrete runs -/

/-- An archive stream with three entries, two of them under a directory. -/
def sampleStream : Stream :=
  ⟨1, [⟨str "dir/a.ovf", 3, [60, 47, 62]⟩, ⟨str "dir/a.mf", 2, [83, 72]⟩,
       ⟨str "b.ovf", 1, [60]⟩], Error.EOF, none⟩

/-- An archive stream without entries. -/
def emptyStream : Stream := ⟨2, [], Error.EOF, none⟩

/-- An archive stream whose framing is corrupt from the first header on. -/
def corruptStream : Stream := ⟨3, [], Error.other 7, none⟩

/-- A file system with the three archives, and a transport that always fails. -/
def sampleEnv : Env :=
  ⟨fun p => p,
   fun p =>
     if p = str "a.ova" then .ok sampleStream
     else if p = str "empty.ova" then .ok emptyStream
     else if p = str "corrupt.ova" then .ok corruptStream
     else .error Error.ErrNotExist,
   fun _ => .ok 10240,
   fun u => .ok u,
   fun _ _ => Ret.fail 0 (Error.other 1),
   fun _ => "manifest"⟩

/-! ## Lemmas on the string functions -/

theorem HasPrefix_iff_isPrefix (s pre : GoString) :
    strings.HasPrefix s pre = true ↔ pre <+: s := by
  unfold strings.HasPrefix
  rw [Bool.and_eq_true, decide_eq_true_iff, beq_iff_eq, List.prefix_iff_eq_take]
  constructor
  · rintro ⟨_, h⟩
    exact h.symm
  · intro h
    refine ⟨?_, h.symm⟩
    have := congrArg List.length h
    rw [List.length_take] at this
    omega

theorem HasPrefix_singleton (x : GoString) (c : Nat) :
    strings.HasPrefix x [c] = true ↔ ∃ t, x = c :: t := by
  rw [HasPrefix_iff_isPrefix]
  constructor
  · rintro ⟨t, rfl⟩
    exact ⟨t, rfl⟩
  · rintro ⟨t, rfl⟩
    exact ⟨t, rfl⟩

theorem LastIndex_loop_not_mem (s : GoString) (c : Nat) (h : c ∉ s) (i : Nat) :
    strings.LastIndex.loop s [c] i = -1 := by
  have key : ∀ k, strings.HasPrefix (s.drop k) [c] = false := by
    intro k
    rw [Bool.eq_false_iff]
    intro hp
    obtain ⟨t, ht⟩ := (HasPrefix_singleton _ _).1 hp
    have : c ∈ s.drop k := by rw [ht]; exact List.mem_cons_self _ _
    exact h (List.mem_of_mem_drop this)
  induction i with
  | zero =>
    have := key 0
    simp only [List.drop_zero] at this
    simp [strings.LastIndex.loop, this]
  | succ i ih => simp [strings.LastIndex.loop, key (i + 1), ih]

theorem LastIndex_loop_last (pre post : GoString) (c : Nat) (h : c ∉ post) (i : Nat)
    (hi : pre.length ≤ i) :
    strings.LastIndex.loop (pre ++ c :: post) [c] i = (pre.length : Int) := by
  induction i with
  | zero =>
    have hpre : pre = [] := List.length_eq_zero.1 (Nat.le_zero.1 hi)
    subst hpre
    have : strings.HasPrefix (c :: post) [c] = true := (HasPrefix_singleton _ _).2 ⟨post, rfl⟩
    simp [strings.LastIndex.loop, this]
  | succ i ih =>
    unfold strings.LastIndex.loop
    by_cases hlt : pre.length ≤ i
    · have hf : strings.HasPrefix ((pre ++ c :: post).drop (i + 1)) [c] = false := by
        rw [Bool.eq_false_iff]
        intro hp
        obtain ⟨t, ht⟩ := (HasPrefix_singleton _ _).1 hp
        have hd : (pre ++ c :: post).drop (i + 1) = post.drop (i - pre.length) := by
          rw [List.drop_append_eq_append_drop]
          have h1 : pre.length ≤ i + 1 := by omega
          rw [List.drop_eq_nil_of_le h1, List.nil_append]
          have h2 : i + 1 - pre.length = (i - pre.length) + 1 := by omega
          rw [h2, List.drop_succ_cons]
        rw [hd] at ht
        have : c ∈ post.drop (i - pre.length) := by rw [ht]; exact List.mem_cons_self _ _
        exact h (List.mem_of_mem_drop this)
      rw [hf]
      simpa using ih hlt
    · have heq : pre.length = i + 1 := by omega
      have ht : strings.HasPrefix ((pre ++ c :: post).drop (i + 1)) [c] = true := by
        rw [← heq, List.drop_left]
        exact (HasPrefix_singleton _ _).2 ⟨post, rfl⟩
      rw [ht]
      simp [heq]

theorem LastIndex_not_mem (s : GoString) (c : Nat) (h : c ∉ s) :
    strings.LastIndex s [c] = -1 := by
  unfold strings.LastIndex
  split
  · rfl
  · exact LastIndex_loop_not_mem s c h _

theorem LastIndex_last (pre post : GoString) (c : Nat) (h : c ∉ post) :
    strings.LastIndex (pre ++ c :: post) [c] = (pre.length : Int) := by
  unfold strings.LastIndex
  rw [if_neg (by simp)]
  apply LastIndex_loop_last pre post c h
  simp

/-- Every string that contains `c` splits at its last `c`. -/
theorem exists_last_split (s : GoString) (c : Nat) (h : c ∈ s) :
    ∃ pre post, s = pre ++ c :: post ∧ c ∉ post := by
  induction s with
  | nil => simp at h
  | cons a t ih =>
    by_cases ht : c ∈ t
    · obtain ⟨pre, post, hs, hp⟩ := ih ht
      exact ⟨a :: pre, post, by rw [hs]; rfl, hp⟩
    · have hac : c = a := by
        rcases List.mem_cons.1 h with h1 | h1
        · exact h1
        · exact absurd h1 ht
      subst hac
      exact ⟨[], t, rfl, ht⟩

theorem str_slash : str "/" = [47] := by decide

/-! ## FileArchive.Open and the Opener -/

theorem fpath_of_split (t : FileArchive) (N pre post : GoString) (hne : N ≠ t.Path)
    (hs : t.Path = pre ++ 47 :: post) (hp : 47 ∉ post) :
    FileArchive.Open.fpath t N = pre ++ 47 :: N := by
  unfold FileArchive.Open.fpath
  rw [if_pos hne, str_slash, hs, LastIndex_last pre post 47 hp]
  have h1 : ((pre.length : Int) ≠ -1) := by omega
  simp [h1]

theorem fpath_of_not_mem (t : FileArchive) (N : GoString) (h : 47 ∉ t.Path) :
    FileArchive.Open.fpath t N = N := by
  unfold FileArchive.Open.fpath
  rw [str_slash, LastIndex_not_mem _ _ h]
  simp

theorem isRemotePath_iff (a : GoString) :
    isRemotePath a = true ↔ (str "http://" <+: a ∨ str "https://" <+: a) := by
  unfold isRemotePath
  rw [← HasPrefix_iff_isPrefix, ← HasPrefix_iff_isPrefix]
  cases strings.HasPrefix a (str "http://") <;> cases strings.HasPrefix a (str "https://") <;> simp

/-- A scheme that ends in "/" and is a prefix of a path is still a prefix once
the text after the last "/" of the path is replaced. -/
theorem scheme_prefix_sibling (body pre post r N : GoString)
    (h : body ++ 47 :: r = pre ++ 47 :: post) (hp : 47 ∉ post) :
    body ++ [47] <+: pre ++ 47 :: N := by
  rcases List.append_eq_append_iff.1 h with ⟨a, ha, hb⟩ | ⟨c, hc, hd⟩
  · cases a with
    | nil =>
      simp only [List.append_nil] at ha
      subst ha
      exact ⟨N, by simp⟩
    | cons x a =>
      simp only [List.cons_append, List.cons.injEq] at hb
      obtain ⟨hx, -⟩ := hb
      subst hx ha
      exact ⟨a ++ 47 :: N, by simp⟩
  · cases c with
    | nil =>
      simp only [List.append_nil] at hc
      subst hc
      exact ⟨N, by simp⟩
    | cons x c =>
      simp only [List.cons_append, List.cons.injEq] at hd
      obtain ⟨-, hd⟩ := hd
      exact absurd (by rw [hd]; simp) hp

/-- C5. FileArchive.Open hands to OpenFile the name itself when it equals
Path, otherwise the text of Path up to and including its last "/" followed by
the name, or the name unchanged when Path has no "/"; its result is the result
of OpenFile on that address. -/
theorem FileArchive_Open_sibling (env : Env) (t : FileArchive) (N : GoString) (w : World) :
    FileArchive.Open env t N w = t.Opener.OpenFile env (FileArchive.Open.fpath t N) w
    ∧ (N = t.Path → FileArchive.Open.fpath t N = N)
    ∧ (∀ pre post : GoString, N ≠ t.Path → t.Path = pre ++ str "/" ++ post → 47 ∉ post →
        FileArchive.Open.fpath t N = pre ++ str "/" ++ N)
    ∧ (N ≠ t.Path → 47 ∈ t.Path → ∃ pre post : GoString,
        t.Path = pre ++ str "/" ++ post ∧ 47 ∉ post
        ∧ FileArchive.Open.fpath t N = pre ++ str "/" ++ N)
    ∧ (N ≠ t.Path → 47 ∉ t.Path → FileArchive.Open.fpath t N = N)
    ∧ FileArchive.Open.fpath ⟨str "/a/b/x.ovf", t.Opener⟩ (str "y.mf") = str "/a/b/y.mf"
    ∧ FileArchive.Open.fpath ⟨str "x.ovf", t.Opener⟩ (str "y.mf") = str "y.mf" := by
  refine ⟨rfl, ?_, ?_, ?_, ?_, ?_, ?_⟩
  · intro h
    simp [FileArchive.Open.fpath, h]
  · intro pre post hne hs hp
    rw [str_slash] at hs ⊢
    simp only [List.append_assoc, List.singleton_append] at hs ⊢
    exact fpath_of_split t N pre post hne hs hp
  · intro hne hmem
    obtain ⟨pre, post, hs, hp⟩ := exists_last_split _ _ hmem
    refine ⟨pre, post, ?_, hp, ?_⟩
    · rw [str_slash, hs]
      simp
    · rw [str_slash, fpath_of_split t N pre post hne hs hp]
      simp
  · intro _ h
    exact fpath_of_not_mem t N h
  · simp only [FileArchive.Open.fpath]
    decide
  · simp only [FileArchive.Open.fpath]
    decide

/-- C6. isRemotePath holds exactly for the addresses that begin with
"http://" or "https://", and OpenFile is OpenRemote on those and OpenLocal on
all others, among them "/tmp/http://x", "ftp://x" and "HTTP://x". -/
theorem OpenFile_dispatch (env : Env) (o : Opener) (a : GoString) (w : World) :
    (isRemotePath a = true ↔ (str "http://" <+: a ∨ str "https://" <+: a))
    ∧ o.OpenFile env a w = (if isRemotePath a = true then o.OpenRemote env a w
                            else o.OpenLocal env a w)
    ∧ isRemotePath (str "/tmp/http://x") = false
    ∧ isRemotePath (str "ftp://x") = false
    ∧ isRemotePath (str "HTTP://x") = false
    ∧ isRemotePath (str "http://x") = true
    ∧ isRemotePath (str "https://x") = true
    ∧ o.OpenFile env (str "/tmp/http://x") w = o.OpenLocal env (str "/tmp/http://x") w := by
  refine ⟨isRemotePath_iff a, rfl, by decide, by decide, by decide, by decide, by decide, ?_⟩
  have h : isRemotePath (str "/tmp/http://x") = false := by decide
  simp [Opener.OpenFile, h]

/-- C7. Without a client OpenRemote returns no stream, length 0 and the error
"remote path not supported" for every link, so does OpenFile on every remote
address, and the event log is unchanged: the download transport is not
invoked. -/
theorem OpenRemote_no_client (env : Env) (o : Opener) (link : GoString) (w : World)
    (h : o.Client = none) :
    o.OpenRemote env link w = (Ret.fail 0 (Error.New "remote path not supported"), w)
    ∧ (o.OpenRemote env link w).1.val = none
    ∧ (o.OpenRemote env link w).1.n = 0
    ∧ (o.OpenRemote env link w).1.err = some (Error.New "remote path not supported")
    ∧ downloadCount (o.OpenRemote env link w).2 = downloadCount w
    ∧ ((str "http://" <+: link ∨ str "https://" <+: link) →
        o.OpenFile env link w = (Ret.fail 0 (Error.New "remote path not supported"), w)) := by
  have h1 : o.OpenRemote env link w
      = (Ret.fail 0 (Error.New "remote path not supported"), w) := by
    simp [Opener.OpenRemote, h]
  refine ⟨h1, ?_, ?_, ?_, ?_, ?_⟩
  · rw [h1]; rfl
  · rw [h1]; rfl
  · rw [h1]; rfl
  · rw [h1]
  · intro hr
    have hr1 := (isRemotePath_iff link).2 hr
    simp [Opener.OpenFile, hr1, h1]

theorem fpath_remote (t : FileArchive) (N : GoString)
    (h : isRemotePath t.Path = true) :
    isRemotePath (FileArchive.Open.fpath t N) = true := by
  by_cases hN : N = t.Path
  · have : FileArchive.Open.fpath t N = N := by simp [FileArchive.Open.fpath, hN]
    rw [this, hN]
    exact h
  · have hmem : 47 ∈ t.Path := by
      rcases (isRemotePath_iff _).1 h with ⟨r, hr⟩ | ⟨r, hr⟩
      · rw [← hr]
        exact List.mem_append_left _ (by decide)
      · rw [← hr]
        exact List.mem_append_left _ (by decide)
    obtain ⟨pre, post, hs, hp⟩ := exists_last_split _ _ hmem
    rw [fpath_of_split t N pre post hN hs hp, isRemotePath_iff]
    rcases (isRemotePath_iff _).1 h with ⟨r, hr⟩ | ⟨r, hr⟩
    · left
      have e : str "http://" = str "http:/" ++ [47] := by decide
      rw [e]
      apply scheme_prefix_sibling (str "http:/") pre post r N _ hp
      rw [← hs, ← hr, e]
      simp
    · right
      have e : str "https://" = str "https:/" ++ [47] := by decide
      rw [e]
      apply scheme_prefix_sibling (str "https:/") pre post r N _ hp
      rw [← hs, ← hr, e]
      simp

/-- OpenRemote never calls os.Open. -/
theorem OpenRemote_openCount (env : Env) (o : Opener) (link : GoString) (w : World) :
    openCount (o.OpenRemote env link w).2 = openCount w := by
  unfold Opener.OpenRemote
  cases o.Client with
  | none => rfl
  | some c =>
    cases env.Parse link with
    | error e => rfl
    | ok u => simp [openCount, List.filter_append]

/-- C10. For a remote primary path the address that FileArchive.Open hands to
OpenFile is again remote, so FileArchive.Open is OpenRemote on that address:
OpenLocal is not taken and os.Open is not called. -/
theorem sibling_preserves_remote (env : Env) (t : FileArchive) (N : GoString) (w : World)
    (h : isRemotePath t.Path = true) :
    isRemotePath (FileArchive.Open.fpath t N) = true
    ∧ FileArchive.Open env t N w = t.Opener.OpenFile env (FileArchive.Open.fpath t N) w
    ∧ t.Opener.OpenFile env (FileArchive.Open.fpath t N) w
        = t.Opener.OpenRemote env (FileArchive.Open.fpath t N) w
    ∧ FileArchive.Open env t N w = t.Opener.OpenRemote env (FileArchive.Open.fpath t N) w
    ∧ openCount (FileArchive.Open env t N w).2 = openCount w := by
  have hr := fpath_remote t N h
  have h1 : t.Opener.OpenFile env (FileArchive.Open.fpath t N) w
      = t.Opener.OpenRemote env (FileArchive.Open.fpath t N) w := by
    simp [Opener.OpenFile, hr]
  have h2 : FileArchive.Open env t N w
      = t.Opener.OpenRemote env (FileArchive.Open.fpath t N) w := by
    unfold FileArchive.Open
    exact h1
  refine ⟨hr, rfl, h1, h2, ?_⟩
  rw [h2]
  exact OpenRemote_openCount env t.Opener _ w

/-! ## path.Match: syntax errors do not depend on the name -/

theorem ranges_indep (fuel : Nat) : ∀ (chunk : GoString) (r r' : Nat) (m m' : Bool) (n : Nat),
    restOf (path.matchChunk.ranges fuel chunk r m n)
      = restOf (path.matchChunk.ranges fuel chunk r' m' n) := by
  induction fuel with
  | zero => intros; rfl
  | succ fuel ih =>
    intro chunk r r' m m' n
    simp only [path.matchChunk.ranges]
    split_ifs with h1
    · rfl
    · cases h2 : path.getEsc chunk with
      | error e => rfl
      | ok p =>
        obtain ⟨lo, chunk1⟩ := p
        simp only []
        split_ifs with h3
        · cases h4 : path.getEsc chunk1.tail with
          | error e => rfl
          | ok q =>
            obtain ⟨hi, chunk2⟩ := q
            exact ih _ _ _ _ _ _
        · exact ih _ _ _ _ _ _

theorem restOf_cases (A B : Option (Except Error (GoString × Bool)))
    (h : restOf A = restOf B) :
    (A = none ∧ B = none) ∨ (∃ e, A = some (.error e) ∧ B = some (.error e))
    ∨ (∃ c b b', A = some (.ok (c, b)) ∧ B = some (.ok (c, b'))) := by
  rcases A with _ | ⟨e | ⟨c, b⟩⟩ <;> rcases B with _ | ⟨e' | ⟨c', b'⟩⟩ <;>
    simp [restOf] at h ⊢
  · exact h.symm
  · exact h.symm

theorem matchChunk_loop_indep (fuel : Nat) : ∀ (chunk s s' : GoString) (f f' : Bool),
    errOf (path.matchChunk.loop fuel chunk s f) = errOf (path.matchChunk.loop fuel chunk s' f') := by
  induction fuel with
  | zero =>
    intro chunk s s' f f'
    cases chunk with
    | nil => simp [path.matchChunk.loop, errOf]
    | cons c chunk => simp [path.matchChunk.loop, errOf]
  | succ fuel ih =>
    intro chunk s s' f f'
    cases chunk with
    | nil => simp [path.matchChunk.loop, errOf]
    | cons c chunk =>
      simp only [path.matchChunk.loop]
      by_cases h1 : c = 91
      · simp only [h1, if_true]
        generalize (if decide (chunk.head? = some 94) = true then chunk.tail else chunk) = chunk1
        generalize (if (f || s.isEmpty) = true then 0 else (utf8.DecodeRuneInString s).1) = r
        generalize (if (f' || s'.isEmpty) = true then 0 else (utf8.DecodeRuneInString s').1) = r'
        rcases restOf_cases _ _ (ranges_indep (chunk1.length + 1) chunk1 r r' false false 0)
          with ⟨hA, hB⟩ | ⟨e, hA, hB⟩ | ⟨c2, b, b', hA, hB⟩
        · rw [hA, hB]
        · rw [hA, hB]
        · rw [hA, hB]
          exact ih _ _ _ _ _
      · simp only [h1, if_false]
        by_cases h2 : c = 63
        · simp only [h2, if_true]
          split_ifs <;> exact ih _ _ _ _ _
        · simp only [h2, if_false]
          by_cases h3 : c = 92
          · simp only [h3, if_true]
            cases chunk with
            | nil => rfl
            | cons c1 chunk1 =>
              simp only []
              split_ifs <;> exact ih _ _ _ _ _
          · simp only [h3, if_false]
            split_ifs <;> exact ih _ _ _ _ _

theorem matchChunk_indep (chunk s s' : GoString) :
    errOf (path.matchChunk chunk s) = errOf (path.matchChunk chunk s') :=
  matchChunk_loop_indep _ _ _ _ _ _

theorem stars_head (p : GoString) : ∀ b, (path.scanChunk.stars p b).2.head? ≠ some 42 := by
  induction p with
  | nil => intro b; simp [path.scanChunk.stars]
  | cons c p ih =>
    intro b
    unfold path.scanChunk.stars
    split_ifs with h
    · exact ih true
    · simpa using h

theorem stars_length (p : GoString) : ∀ b, (path.scanChunk.stars p b).2.length ≤ p.length := by
  induction p with
  | nil => intro b; simp [path.scanChunk.stars]
  | cons c p ih =>
    intro b
    unfold path.scanChunk.stars
    split_ifs with h
    · have := ih true
      simp only [List.length_cons]
      omega
    · simp

theorem scan_ge (n : Nat) : ∀ (p : GoString), p.length ≤ n → ∀ (inr : Bool) (i : Nat),
    i ≤ path.scanChunk.scan p inr i := by
  induction n using Nat.strong_induction_on with
  | _ n ih =>
    intro p hp inr i
    cases p with
    | nil => simp [path.scanChunk.scan]
    | cons c p =>
      simp only [List.length_cons] at hp
      unfold path.scanChunk.scan
      split_ifs with h1 h2 h3 h4 h5
      · cases p with
        | nil => simp
        | cons d p1 =>
          simp only [List.length_cons] at hp
          have := ih p1.length (by omega) p1 (le_refl _) inr (i + 2)
          simp only []
          omega
      · have := ih p.length (by omega) p (le_refl _) true (i + 1)
        omega
      · have := ih p.length (by omega) p (le_refl _) false (i + 1)
        omega
      · have := ih p.length (by omega) p (le_refl _) inr (i + 1)
        omega
      · exact le_refl _
      · have := ih p.length (by omega) p (le_refl _) inr (i + 1)
        omega

theorem scan_pos (c : Nat) (p : GoString) (hc : c ≠ 42) (i : Nat) :
    i + 1 ≤ path.scanChunk.scan (c :: p) false i := by
  unfold path.scanChunk.scan
  split_ifs with h1 h2 h3
  · cases p with
    | nil => simp
    | cons d p1 =>
      have := scan_ge p1.length p1 (le_refl _) false (i + 2)
      simp only []
      omega
  · exact scan_ge _ _ (le_refl _) _ _
  · exact scan_ge _ _ (le_refl _) _ _
  · exact scan_ge _ _ (le_refl _) _ _

/-- A chunk is empty only at the end of the pattern. -/
theorem scanChunk_chunk_nil (pat : GoString) (h : (path.scanChunk pat).2.1 = []) :
    (path.scanChunk pat).2.2 = [] := by
  simp only [path.scanChunk] at h ⊢
  have hh := stars_head pat false
  cases hsp : (path.scanChunk.stars pat false).2 with
  | nil => simp
  | cons c p =>
    rw [hsp] at h hh
    have hc : c ≠ 42 := by simpa using hh
    have := scan_pos c p hc 0
    have h2 : path.scanChunk.scan (c :: p) false 0 = (path.scanChunk.scan (c :: p) false 0 - 1) + 1 := by
      omega
    rw [h2] at h
    simp at h

/-- Every call of scanChunk on a non-empty pattern shortens the pattern. -/
theorem scanChunk_rest_length (c : Nat) (p : GoString) :
    (path.scanChunk (c :: p)).2.2.length ≤ p.length := by
  simp only [path.scanChunk, List.length_drop]
  by_cases h : c = 42
  · have h1 : path.scanChunk.stars (c :: p) false = path.scanChunk.stars p true := by
      simp [path.scanChunk.stars, h]
    rw [h1]
    have := stars_length p true
    omega
  · have h1 : path.scanChunk.stars (c :: p) false = (false, c :: p) := by
      simp [path.scanChunk.stars, h]
    rw [h1]
    have := scan_pos c p h 0
    simp only [List.length_cons]
    omega

theorem star_bad (chunk : GoString) (last : Bool) (e : Error) : ∀ name : GoString,
    path.Match.star chunk last name = path.StarResult.bad e →
    ∃ x, path.matchChunk chunk x = some (.error e) := by
  intro name
  induction name with
  | nil => simp [path.Match.star]
  | cons c name ih =>
    unfold path.Match.star
    split_ifs with h
    · simp
    · cases hm : path.matchChunk chunk name with
      | none => simp
      | some r =>
        rcases r with e' | (_ | t)
        · simp only [path.StarResult.bad.injEq]
          intro he
          exact ⟨name, by rw [hm, he]⟩
        · simpa using ih
        · simp only []
          split_ifs
          · exact ih
          · simp

theorem star_fuel (chunk : GoString) (last : Bool) : ∀ name : GoString,
    path.Match.star chunk last name = path.StarResult.fuel →
    ∃ x, path.matchChunk chunk x = none := by
  intro name
  induction name with
  | nil => simp [path.Match.star]
  | cons c name ih =>
    unfold path.Match.star
    split_ifs with h
    · simp
    · cases hm : path.matchChunk chunk name with
      | none => intro _; exact ⟨name, hm⟩
      | some r =>
        rcases r with e' | (_ | t)
        · simp
        · simpa using ih
        · simp only []
          split_ifs
          · exact ih
          · simp

/-- The Pattern loop reports a syntax error exactly when the syntax check of
the whole pattern does, whatever the name. -/
theorem Match_loop_errOf (fuel : Nat) : ∀ (p name : GoString),
    errOf (path.Match.loop fuel p name) = errOf (path.Match.check fuel p) := by
  induction fuel with
  | zero =>
    intro p name
    cases p <;> simp [path.Match.loop, path.Match.check, errOf]
  | succ fuel ih =>
    intro p name
    cases p with
    | nil => simp [path.Match.loop, path.Match.check, errOf]
    | cons c p =>
      simp only [path.Match.loop, path.Match.check]
      by_cases hs : ((path.scanChunk (c :: p)).1 && decide ((path.scanChunk (c :: p)).2.1 = [])) = true
      · rw [if_pos hs]
        have hc : (path.scanChunk (c :: p)).2.1 = [] := by
          simp only [Bool.and_eq_true, decide_eq_true_eq] at hs
          exact hs.2
        rw [hc, scanChunk_chunk_nil _ hc]
        cases fuel <;> simp [path.matchChunk, path.matchChunk.loop, path.Match.check, errOf]
      · rw [if_neg hs]
        have hmc := matchChunk_indep (path.scanChunk (c :: p)).2.1 name []
        generalize path.matchChunk (path.scanChunk (c :: p)).2.1 [] = B at hmc ⊢
        cases hA : path.matchChunk (path.scanChunk (c :: p)).2.1 name with
        | none =>
          rw [hA] at hmc
          rcases B with _ | ⟨e | r⟩ <;> simp [errOf] at hmc ⊢
        | some a =>
          rw [hA] at hmc
          cases a with
          | error e =>
            rcases B with _ | ⟨e' | r⟩ <;> simp [errOf] at hmc ⊢
            exact hmc
          | ok r =>
            rcases B with _ | ⟨e' | r'⟩ <;> simp only [errOf] at hmc
            · simp at hmc
            · simp at hmc
            · simp only []
              split
              · exact ih _ _
              · split_ifs with hstar
                · split
                  · exact ih _ _
                  · rename_i e hbad
                    obtain ⟨x, hx⟩ := star_bad _ _ _ _ hbad
                    have := matchChunk_indep (path.scanChunk (c :: p)).2.1 x name
                    rw [hx, hA] at this
                    simp [errOf] at this
                  · rename_i hfuel
                    obtain ⟨x, hx⟩ := star_fuel _ _ _ hfuel
                    have := matchChunk_indep (path.scanChunk (c :: p)).2.1 x name
                    rw [hx, hA] at this
                    simp [errOf] at this
                  · rfl
                · rfl

/-! ## path.Match: the fuel suffices -/

theorem decode_tail_width (s0 sz lo hi len : Nat) (t : GoString) :
    1 ≤ (if len < sz then (utf8.RuneError, 1)
      else
        if t.getD 0 0 < lo ∨ hi < t.getD 0 0 then (utf8.RuneError, 1)
        else if sz ≤ 2 then (s0 % 32 * 64 + t.getD 0 0 % 64, 2)
        else
          if t.getD 1 0 < 0x80 ∨ 0xBF < t.getD 1 0 then (utf8.RuneError, 1)
          else if sz ≤ 3 then (s0 % 16 * 4096 + t.getD 0 0 % 64 * 64 + t.getD 1 0 % 64, 3)
          else
            if t.getD 2 0 < 0x80 ∨ 0xBF < t.getD 2 0 then (utf8.RuneError, 1)
            else (s0 % 8 * 262144 + t.getD 0 0 % 64 * 4096 + t.getD 1 0 % 64 * 64
                    + t.getD 2 0 % 64, 4) : Nat × Nat).2 := by
  split_ifs <;> simp

/-- Decoding a rune of a non-empty string consumes at least one byte. -/
theorem decode_width_pos (c : Nat) (s : GoString) :
    1 ≤ (utf8.DecodeRuneInString (c :: s)).2 := by
  unfold utf8.DecodeRuneInString
  dsimp only
  by_cases h1 : c < 0x80
  · rw [if_pos h1]
  · rw [if_neg h1]
    by_cases h2 : c < 0xC2 ∨ 0xF4 < c
    · rw [if_pos h2]
    · rw [if_neg h2]
      exact decode_tail_width _ _ _ _ _ _

theorem getEsc_length (chunk : GoString) (r : Nat) (c' : GoString)
    (h : path.getEsc chunk = .ok (r, c')) : c'.length < chunk.length := by
  unfold path.getEsc at h
  cases chunk with
  | nil => simp at h
  | cons c rest =>
    simp only [] at h
    by_cases hc : c = 92
    · subst hc
      cases rest with
      | nil => simp at h
      | cons d rest1 =>
        simp only [if_true] at h
        split_ifs at h
        simp only [Except.ok.injEq, Prod.mk.injEq] at h
        obtain ⟨-, rfl⟩ := h
        have := decode_width_pos d rest1
        simp only [List.length_drop, List.length_cons]
        omega
    · simp only [hc, if_false, false_and] at h
      split_ifs at h
      simp only [Except.ok.injEq, Prod.mk.injEq] at h
      obtain ⟨-, rfl⟩ := h
      have := decode_width_pos c rest
      simp only [List.length_drop, List.length_cons]
      omega

theorem ranges_fuel (fuel : Nat) : ∀ (chunk : GoString) (r : Nat) (m : Bool) (n : Nat),
    chunk.length < fuel →
    path.matchChunk.ranges fuel chunk r m n ≠ none
    ∧ ∀ c' b, path.matchChunk.ranges fuel chunk r m n = some (.ok (c', b)) →
        c'.length < chunk.length := by
  induction fuel with
  | zero => intro chunk r m n h; omega
  | succ fuel ih =>
    intro chunk r m n hlen
    simp only [path.matchChunk.ranges]
    split_ifs with h1
    · refine ⟨by simp, ?_⟩
      intro c' b h
      simp only [Option.some.injEq, Except.ok.injEq, Prod.mk.injEq] at h
      obtain ⟨rfl, -⟩ := h
      cases chunk with
      | nil => simp at h1
      | cons d t => simp
    · cases h2 : path.getEsc chunk with
      | error e => simp
      | ok p =>
        obtain ⟨lo, chunk1⟩ := p
        have hl1 := getEsc_length _ _ _ h2
        simp only []
        split_ifs with h3
        · cases h4 : path.getEsc chunk1.tail with
          | error e => simp
          | ok q =>
            obtain ⟨hi, chunk2⟩ := q
            have hl2 := getEsc_length _ _ _ h4
            have ht : chunk1.tail.length ≤ chunk1.length := by simp
            simp only []
            obtain ⟨i1, i2⟩ := ih chunk2 r (m || (decide (lo ≤ r) && decide (r ≤ hi))) (n + 1)
              (by omega)
            refine ⟨i1, ?_⟩
            intro c' b h
            have := i2 c' b h
            omega
        · obtain ⟨i1, i2⟩ := ih chunk1 r (m || (decide (lo ≤ r) && decide (r ≤ lo))) (n + 1)
            (by omega)
          refine ⟨i1, ?_⟩
          intro c' b h
          have := i2 c' b h
          omega

theorem matchChunk_loop_fuel (fuel : Nat) : ∀ (chunk s : GoString) (f : Bool),
    chunk.length ≤ fuel → path.matchChunk.loop fuel chunk s f ≠ none := by
  induction fuel with
  | zero =>
    intro chunk s f h
    have : chunk = [] := List.length_eq_zero.1 (Nat.le_zero.1 h)
    subst this
    simp [path.matchChunk.loop]
  | succ fuel ih =>
    intro chunk s f hlen
    cases chunk with
    | nil => simp [path.matchChunk.loop]
    | cons c chunk =>
      simp only [List.length_cons, Nat.add_le_add_iff_right] at hlen
      simp only [path.matchChunk.loop]
      by_cases h1 : c = 91
      · simp only [h1, if_true]
        have hc1 : (if decide (chunk.head? = some 94) = true then chunk.tail else chunk).length
            ≤ chunk.length := by
          split_ifs <;> simp
        generalize (if decide (chunk.head? = some 94) = true then chunk.tail else chunk) = chunk1
          at hc1 ⊢
        generalize (if (f || s.isEmpty) = true then 0 else (utf8.DecodeRuneInString s).1) = r
        obtain ⟨i1, i2⟩ := ranges_fuel (chunk1.length + 1) chunk1 r false 0 (by omega)
        cases hr : path.matchChunk.ranges (chunk1.length + 1) chunk1 r false 0 with
        | none => exact absurd hr i1
        | some a =>
          rcases a with e | ⟨c2, b⟩
          · simp
          · have := i2 c2 b hr
            exact ih _ _ _ (by omega)
      · simp only [h1, if_false]
        by_cases h2 : c = 63
        · simp only [h2, if_true]
          split_ifs <;> exact ih _ _ _ hlen
        · simp only [h2, if_false]
          by_cases h3 : c = 92
          · simp only [h3, if_true]
            cases chunk with
            | nil => simp
            | cons c1 chunk1 =>
              simp only [List.length_cons] at hlen
              simp only []
              split_ifs <;> exact ih _ _ _ (by omega)
          · simp only [h3, if_false]
            split_ifs <;> exact ih _ _ _ hlen

theorem matchChunk_fuel (chunk s : GoString) : path.matchChunk chunk s ≠ none :=
  matchChunk_loop_fuel _ _ _ _ (le_refl _)

theorem Match_check_fuel (fuel : Nat) : ∀ p : GoString, p.length ≤ fuel →
    path.Match.check fuel p ≠ none := by
  induction fuel with
  | zero =>
    intro p h
    have : p = [] := List.length_eq_zero.1 (Nat.le_zero.1 h)
    subst this
    simp [path.Match.check]
  | succ fuel ih =>
    intro p hlen
    cases p with
    | nil => simp [path.Match.check]
    | cons c p =>
      simp only [List.length_cons, Nat.add_le_add_iff_right] at hlen
      simp only [path.Match.check]
      have hrest := scanChunk_rest_length c p
      cases hm : path.matchChunk (path.scanChunk (c :: p)).2.1 [] with
      | none => exact absurd hm (matchChunk_fuel _ _)
      | some a =>
        cases a with
        | error e => simp
        | ok r => exact ih _ (by omega)

/-- The Pattern loop of Match never runs out of fuel: path.Match is the
result of the loop. -/
theorem Match_loop_fuel (pattern name : GoString) :
    path.Match.loop pattern.length pattern name ≠ none := by
  intro h
  have h1 := Match_loop_errOf pattern.length pattern name
  rw [h] at h1
  have h2 := Match_check_fuel pattern.length pattern (le_refl _)
  cases hc : path.Match.check pattern.length pattern with
  | none => exact h2 hc
  | some a =>
    rw [hc] at h1
    cases a <;> simp [errOf] at h1

/-- A syntax error that path.Match reports for one name it reports for every name. -/
theorem Match_error_any_name (pattern s s' : GoString) (e : Error)
    (h : path.Match pattern s = .error e) : path.Match pattern s' = .error e := by
  have h1 := Match_loop_errOf pattern.length pattern s
  have h2 := Match_loop_errOf pattern.length pattern s'
  unfold path.Match at h ⊢
  cases hA : path.Match.loop pattern.length pattern s with
  | none => rw [hA] at h; simp at h
  | some a =>
    rw [hA] at h h1
    simp only at h
    subst h
    rw [← h2] at h1
    cases hB : path.Match.loop pattern.length pattern s' with
    | none => rw [hB] at h1; simp [errOf] at h1
    | some b =>
      rw [hB] at h1
      cases b with
      | error e' =>
        simp only [errOf, Option.some.injEq] at h1
        rw [h1]
      | ok r => simp [errOf] at h1

/-! ## TapeArchive.Open -/

theorem wellFormed_of_nil (P : GoString) (b : Bool) (h : path.Match P [] = .ok b) :
    WellFormed P := by
  intro s e hs
  have := Match_error_any_name P s [] e hs
  rw [h] at this
  cases this

theorem malformed_any_name (P : GoString) (h : Malformed P) (s : GoString) :
    path.Match P s = .error Error.ErrBadPattern := by
  obtain ⟨s0, h0⟩ := h
  exact Match_error_any_name P s0 s _ h0

theorem wellFormed_no_match (P s : GoString) (h : WellFormed P)
    (hn : path.Match P s ≠ .ok true) : path.Match P s = .ok false := by
  cases hm : path.Match P s with
  | error e => exact absurd hm (h s e)
  | ok b =>
    cases b with
    | false => rfl
    | true => exact absurd hm hn

/-- The scan in terms of the tar reader: one call of Next per iteration. -/
theorem Open_loop_next (name : GoString) (r : tar.Reader) (w : World) :
    TapeArchive.Open.loop name r.r r.rest w =
      match r.Next with
      | .error err =>
        if err = Error.EOF then (Ret.fail 0 Error.ErrNotExist, (r.r.Close w).2)
        else (Ret.fail 0 err, w)
      | .ok (h, r1) =>
        match path.Match name (path.Base h.Name) with
        | .error err => (Ret.fail 0 err, w)
        | .ok matched =>
          if matched then (Ret.ok ⟨r1, r.r, h.Name⟩ h.Size, w)
          else TapeArchive.Open.loop name r1.r r1.rest w := by
  obtain ⟨f, cur, rest⟩ := r
  cases rest with
  | nil => simp [TapeArchive.Open.loop, tar.Reader.Next]
  | cons h rest => simp [TapeArchive.Open.loop, tar.Reader.Next]

theorem Open_loop_found (P : GoString) (f : Stream) (w : World) (e : TarEntry)
    (post : List TarEntry) (he : path.Match P (path.Base e.Name) = .ok true) :
    ∀ pre : List TarEntry, (∀ x ∈ pre, path.Match P (path.Base x.Name) = .ok false) →
    TapeArchive.Open.loop P f (pre ++ e :: post) w
      = (Ret.ok ⟨⟨f, e.data, post⟩, f, e.Name⟩ e.Size, w) := by
  intro pre
  induction pre with
  | nil =>
    intro _
    simp [TapeArchive.Open.loop, he]
  | cons x pre ih =>
    intro h
    have hx := h x (List.mem_cons_self _ _)
    simp only [List.cons_append, TapeArchive.Open.loop, hx]
    exact ih (fun y hy => h y (List.mem_cons_of_mem _ hy))

theorem Open_loop_none (P : GoString) (f : Stream) (w : World) (hf : f.tail = Error.EOF) :
    ∀ es : List TarEntry, (∀ x ∈ es, path.Match P (path.Base x.Name) = .ok false) →
    TapeArchive.Open.loop P f es w
      = (Ret.fail 0 Error.ErrNotExist, w ++ [Event.Close f.id]) := by
  intro es
  induction es with
  | nil =>
    intro _
    simp [TapeArchive.Open.loop, hf, Stream.Close]
  | cons x es ih =>
    intro h
    have hx := h x (List.mem_cons_self _ _)
    simp only [TapeArchive.Open.loop, hx]
    exact ih (fun y hy => h y (List.mem_cons_of_mem _ hy))

theorem Open_loop_ok (P : GoString) (f : Stream) (w w2 : World) (h : TapeArchiveEntry)
    (n : Int) : ∀ es : List TarEntry,
    TapeArchive.Open.loop P f es w = (Ret.ok h n, w2) → h.f = f ∧ w2 = w := by
  intro es
  induction es with
  | nil =>
    unfold TapeArchive.Open.loop
    split_ifs <;> simp
  | cons x es ih =>
    unfold TapeArchive.Open.loop
    cases hm : path.Match P (path.Base x.Name) with
    | error e => simp
    | ok b =>
      cases b with
      | false => simpa using ih
      | true =>
        simp only [if_true, Prod.mk.injEq, Ret.ok.injEq]
        rintro ⟨⟨rfl, -⟩, rfl⟩
        exact ⟨rfl, rfl⟩

theorem first_split {α : Type} (p : α → Prop) : ∀ l : List α, (∃ x ∈ l, p x) →
    ∃ pre e post, l = pre ++ e :: post ∧ (∀ x ∈ pre, ¬ p x) ∧ p e := by
  intro l
  induction l with
  | nil => simp
  | cons a l ih =>
    intro h
    by_cases ha : p a
    · exact ⟨[], a, l, rfl, by simp, ha⟩
    · have : ∃ x ∈ l, p x := by
        obtain ⟨x, hx, hp⟩ := h
        rcases List.mem_cons.1 hx with rfl | hx
        · exact absurd hp ha
        · exact ⟨x, hx, hp⟩
      obtain ⟨pre, e, post, hl, hpre, he⟩ := ih this
      refine ⟨a :: pre, e, post, by rw [hl]; rfl, ?_, he⟩
      intro x hx
      rcases List.mem_cons.1 hx with rfl | hx
      · exact ha
      · exact hpre x hx

theorem Open_of_OpenFile (env : Env) (t : TapeArchive) (P : GoString) (w w1 : World)
    (f : Stream) (sz : Int) (hopen : t.Opener.OpenFile env t.Path w = (Ret.ok f sz, w1)) :
    t.Open env P w = TapeArchive.Open.loop P f f.entries w1 := by
  simp [TapeArchive.Open, hopen, tar.NewReader]

/-- C1. With a well formed pattern that some entry's base name matches, Open
succeeds with the first such entry in archive order: the handle's reader
yields that entry's bytes, the length is its declared size, the name its full
name, and the handle holds the archive stream. -/
theorem TapeArchive_Open_first_match (env : Env) (t : TapeArchive) (P : GoString)
    (w w1 : World) (f : Stream) (sz : Int)
    (hopen : t.Opener.OpenFile env t.Path w = (Ret.ok f sz, w1))
    (hwf : WellFormed P)
    (hex : ∃ x ∈ f.entries, path.Match P (path.Base x.Name) = .ok true) :
    ∃ pre e post, f.entries = pre ++ e :: post
      ∧ (∀ x ∈ pre, path.Match P (path.Base x.Name) ≠ .ok true)
      ∧ path.Match P (path.Base e.Name) = .ok true
      ∧ ∃ h : TapeArchiveEntry, t.Open env P w = (Ret.ok h e.Size, w1)
          ∧ h.Reader.ReadAll = e.data ∧ h.Name = e.Name ∧ h.f = f := by
  obtain ⟨pre, e, post, hl, hpre, he⟩ :=
    first_split (fun x : TarEntry => path.Match P (path.Base x.Name) = .ok true) f.entries hex
  refine ⟨pre, e, post, hl, hpre, he, ⟨⟨f, e.data, post⟩, f, e.Name⟩, ?_, rfl, rfl, rfl⟩
  rw [Open_of_OpenFile env t P w w1 f sz hopen, hl]
  exact Open_loop_found P f w1 e post he pre
    (fun x hx => wellFormed_no_match P _ hwf (hpre x hx))

/-- C2. With a well framed archive and a well formed pattern that no entry's
base name matches, Open returns no handle, length 0 and os.ErrNotExist, and
the archive stream has been closed once. -/
theorem TapeArchive_Open_not_found (env : Env) (t : TapeArchive) (P : GoString)
    (w w1 : World) (f : Stream) (sz : Int)
    (hopen : t.Opener.OpenFile env t.Path w = (Ret.ok f sz, w1))
    (hframed : f.tail = Error.EOF)
    (hwf : WellFormed P)
    (hnone : ∀ x ∈ f.entries, path.Match P (path.Base x.Name) ≠ .ok true) :
    t.Open env P w = (Ret.fail 0 Error.ErrNotExist, w1 ++ [Event.Close f.id])
    ∧ (t.Open env P w).1.val = none
    ∧ (t.Open env P w).1.n = 0
    ∧ (t.Open env P w).1.err = some Error.ErrNotExist
    ∧ closeCount f.id (t.Open env P w).2 = closeCount f.id w1 + 1 := by
  have h : t.Open env P w = (Ret.fail 0 Error.ErrNotExist, w1 ++ [Event.Close f.id]) := by
    rw [Open_of_OpenFile env t P w w1 f sz hopen]
    exact Open_loop_none P f w1 hframed f.entries
      (fun x hx => wellFormed_no_match P _ hwf (hnone x hx))
  refine ⟨h, ?_, ?_, ?_, ?_⟩
  · rw [h]; rfl
  · rw [h]; rfl
  · rw [h]; rfl
  · rw [h]
    simp [closeCount, List.count_append]

/-- C9. After a successful Open the archive stream has not been closed since
the Opener returned it, and Close on the returned entry is Close on that
stream: it returns the stream's own result and closes it once. -/
theorem TapeArchiveEntry_Close_once (env : Env) (t : TapeArchive) (P : GoString)
    (w w1 w2 : World) (f : Stream) (sz : Int) (h : TapeArchiveEntry) (n : Int)
    (hopen : t.Opener.OpenFile env t.Path w = (Ret.ok f sz, w1))
    (hok : t.Open env P w = (Ret.ok h n, w2)) :
    h.f = f
    ∧ w2 = w1
    ∧ closeCount f.id w2 = closeCount f.id w1
    ∧ h.Close w2 = f.Close w2
    ∧ (h.Close w2).1 = f.closeErr
    ∧ (h.Close w2).2 = w1 ++ [Event.Close f.id]
    ∧ closeCount f.id (h.Close w2).2 = closeCount f.id w1 + 1 := by
  rw [Open_of_OpenFile env t P w w1 f sz hopen] at hok
  obtain ⟨hf, hw⟩ := Open_loop_ok P f w1 w2 h n f.entries hok
  subst hw
  refine ⟨hf, rfl, rfl, ?_, ?_, ?_, ?_⟩
  · simp [TapeArchiveEntry.Close, hf]
  · simp [TapeArchiveEntry.Close, hf, Stream.Close]
  · simp [TapeArchiveEntry.Close, hf, Stream.Close]
  · simp [TapeArchiveEntry.Close, hf, Stream.Close, closeCount, List.count_append]

/-- C4, as amended. For a malformed pattern Open fails with ErrBadPattern
when the archive has at least one entry; on a well framed archive without
entries the pattern is never examined and Open fails with os.ErrNotExist. -/
theorem TapeArchive_Open_malformed (env : Env) (t : TapeArchive) (P : GoString)
    (w w1 : World) (f : Stream) (sz : Int)
    (hopen : t.Opener.OpenFile env t.Path w = (Ret.ok f sz, w1))
    (hbad : Malformed P) :
    (f.entries ≠ [] →
      (t.Open env P w).1 = Ret.fail 0 Error.ErrBadPattern
      ∧ (t.Open env P w).1.val = none
      ∧ (t.Open env P w).1.err ≠ some Error.ErrNotExist)
    ∧ (f.entries = [] → f.tail = Error.EOF →
      (t.Open env P w).1 = Ret.fail 0 Error.ErrNotExist) := by
  rw [Open_of_OpenFile env t P w w1 f sz hopen]
  constructor
  · intro hne
    cases hes : f.entries with
    | nil => exact absurd hes hne
    | cons x es =>
      have hx := malformed_any_name P hbad (path.Base x.Name)
      simp [TapeArchive.Open.loop, hx, Ret.val, Ret.err]
  · intro hnil hframed
    rw [hnil]
    simp [TapeArchive.Open.loop, hframed]

/-! ## Concrete runs -/

/-- C3, the failing runs. On the glob error path and on the tar framing error
path Open returns the error and the archive stream it opened has not been
closed; on the not-found path of the same archive it has. -/
theorem TapeArchive_Open_error_paths_leave_stream_open :
    Opener.OpenFile sampleEnv ⟨none⟩ (str "a.ova") []
        = (Ret.ok sampleStream 10240, [Event.Open (str "a.ova")])
    ∧ TapeArchive.Open sampleEnv ⟨str "a.ova", ⟨none⟩⟩ (str "[") []
        = (Ret.fail 0 Error.ErrBadPattern, [Event.Open (str "a.ova")])
    ∧ closeCount sampleStream.id
        (TapeArchive.Open sampleEnv ⟨str "a.ova", ⟨none⟩⟩ (str "[") []).2 = 0
    ∧ Opener.OpenFile sampleEnv ⟨none⟩ (str "corrupt.ova") []
        = (Ret.ok corruptStream 10240, [Event.Open (str "corrupt.ova")])
    ∧ TapeArchive.Open sampleEnv ⟨str "corrupt.ova", ⟨none⟩⟩ (str "*.ovf") []
        = (Ret.fail 0 (Error.other 7), [Event.Open (str "corrupt.ova")])
    ∧ closeCount corruptStream.id
        (TapeArchive.Open sampleEnv ⟨str "corrupt.ova", ⟨none⟩⟩ (str "*.ovf") []).2 = 0
    ∧ closeCount sampleStream.id
        (TapeArchive.Open sampleEnv ⟨str "a.ova", ⟨none⟩⟩ (str "*.vmdk") []).2 = 1 := by
  refine ⟨?_, ?_, ?_, ?_, ?_, ?_, ?_⟩ <;> decide

/-- C4, the counterexample. The pattern "[" is malformed, the archive without
entries is well framed and can be opened, and Open returns os.ErrNotExist,
not ErrBadPattern. -/
theorem TapeArchive_Open_malformed_empty_archive :
    Malformed (str "[")
    ∧ emptyStream.entries = [] ∧ emptyStream.tail = Error.EOF
    ∧ Opener.OpenFile sampleEnv ⟨none⟩ (str "empty.ova") []
        = (Ret.ok emptyStream 10240, [Event.Open (str "empty.ova")])
    ∧ (TapeArchive.Open sampleEnv ⟨str "empty.ova", ⟨none⟩⟩ (str "[") []).1
        = Ret.fail 0 Error.ErrNotExist
    ∧ (TapeArchive.Open sampleEnv ⟨str "empty.ova", ⟨none⟩⟩ (str "[") []).1.err
        ≠ some Error.ErrBadPattern := by
  refine ⟨⟨[], by decide⟩, rfl, rfl, ?_, ?_, ?_⟩ <;> decide

/-- C8, the failing runs. The first occurrence of the extension text is
replaced, not the extension: "x.ova.ova" gives "x.mf.ova", and a name without
extension gets ".mf" in front; readManifest asks the archive for that name. -/
theorem readManifest_replaces_first_occurrence :
    ArchiveFlag.readManifest.mfName (str "disk.ova") = str "disk.mf"
    ∧ ArchiveFlag.readManifest.mfName (str "/a/b/disk.ova") = str "disk.mf"
    ∧ ArchiveFlag.readManifest.mfName (str "x.ova.ova") = str "x.mf.ova"
    ∧ ArchiveFlag.readManifest.mfName (str "x.ova.ova") ≠ str "x.ova.mf"
    ∧ ArchiveFlag.readManifest.mfName (str "disk") = str ".mfdisk"
    ∧ ArchiveFlag.readManifest.mfName (str "disk") ≠ str "disk.mf"
    ∧ (ArchiveFlag.readManifest sampleEnv (fun _ => (none, none))
        ⟨Archive.file ⟨str "x.ova.ova", ⟨none⟩⟩, none⟩ (str "x.ova.ova") []).2.2
        = [Event.Open (str "x.mf.ova"), Event.Stderr "manifest"] := by
  refine ⟨?_, ?_, ?_, ?_, ?_, ?_, ?_⟩ <;> decide

/-! ## The theorems at concrete inputs -/

/-- C1 at the sample archive and the pattern "*.mf": the first entry is
skipped and the handle is the second entry, "dir/a.mf", of declared size 2. -/
theorem TapeArchive_Open_first_match_witness :
    Opener.OpenFile sampleEnv ⟨none⟩ (str "a.ova") []
        = (Ret.ok sampleStream 10240, [Event.Open (str "a.ova")])
    ∧ WellFormed (str "*.mf")
    ∧ TapeArchive.Open sampleEnv ⟨str "a.ova", ⟨none⟩⟩ (str "*.mf") []
        = (Ret.ok ⟨⟨sampleStream, [83, 72], [⟨str "b.ovf", 1, [60]⟩]⟩, sampleStream,
            str "dir/a.mf"⟩ 2, [Event.Open (str "a.ova")])
    ∧ ∃ pre e post, sampleStream.entries = pre ++ e :: post
      ∧ (∀ x ∈ pre, path.Match (str "*.mf") (path.Base x.Name) ≠ .ok true)
      ∧ path.Match (str "*.mf") (path.Base e.Name) = .ok true
      ∧ ∃ h : TapeArchiveEntry,
          TapeArchive.Open sampleEnv ⟨str "a.ova", ⟨none⟩⟩ (str "*.mf") []
            = (Ret.ok h e.Size, [Event.Open (str "a.ova")])
          ∧ h.Reader.ReadAll = e.data ∧ h.Name = e.Name ∧ h.f = sampleStream :=
  ⟨by decide, wellFormed_of_nil _ false (by decide), by decide,
   TapeArchive_Open_first_match sampleEnv ⟨str "a.ova", ⟨none⟩⟩ (str "*.mf") []
     [Event.Open (str "a.ova")] sampleStream 10240 (by decide)
     (wellFormed_of_nil _ false (by decide))
     ⟨⟨str "dir/a.mf", 2, [83, 72]⟩, by decide, by decide⟩⟩

/-- C2 at the sample archive and the pattern "*.vmdk", which no entry matches. -/
theorem TapeArchive_Open_not_found_witness :
    Opener.OpenFile sampleEnv ⟨none⟩ (str "a.ova") []
        = (Ret.ok sampleStream 10240, [Event.Open (str "a.ova")])
    ∧ sampleStream.tail = Error.EOF
    ∧ WellFormed (str "*.vmdk")
    ∧ (∀ x ∈ sampleStream.entries, path.Match (str "*.vmdk") (path.Base x.Name) ≠ .ok true)
    ∧ TapeArchive.Open sampleEnv ⟨str "a.ova", ⟨none⟩⟩ (str "*.vmdk") []
        = (Ret.fail 0 Error.ErrNotExist, [Event.Open (str "a.ova")] ++ [Event.Close 1])
    ∧ closeCount 1 (TapeArchive.Open sampleEnv ⟨str "a.ova", ⟨none⟩⟩ (str "*.vmdk") []).2
        = closeCount 1 [Event.Open (str "a.ova")] + 1 :=
  have h := TapeArchive_Open_not_found sampleEnv ⟨str "a.ova", ⟨none⟩⟩ (str "*.vmdk") []
     [Event.Open (str "a.ova")] sampleStream 10240 (by decide) (by decide)
     (wellFormed_of_nil _ false (by decide)) (by decide)
  ⟨by decide, by decide, wellFormed_of_nil _ false (by decide), by decide, h.1, h.2.2.2.2⟩

/-- C4 as amended, at the sample archive and the malformed pattern "[". -/
theorem TapeArchive_Open_malformed_witness :
    Opener.OpenFile sampleEnv ⟨none⟩ (str "a.ova") []
        = (Ret.ok sampleStream 10240, [Event.Open (str "a.ova")])
    ∧ Malformed (str "[")
    ∧ sampleStream.entries ≠ []
    ∧ (TapeArchive.Open sampleEnv ⟨str "a.ova", ⟨none⟩⟩ (str "[") []).1
        = Ret.fail 0 Error.ErrBadPattern :=
  ⟨by decide, ⟨[], by decide⟩, by decide,
   ((TapeArchive_Open_malformed sampleEnv ⟨str "a.ova", ⟨none⟩⟩ (str "[") []
      [Event.Open (str "a.ova")] sampleStream 10240 (by decide) ⟨[], by decide⟩).1
      (by decide)).1⟩

/-- C7 at an opener without client and the link "http://host/a.ova". -/
theorem OpenRemote_no_client_witness :
    (⟨none⟩ : Opener).Client = none
    ∧ Opener.OpenRemote sampleEnv ⟨none⟩ (str "http://host/a.ova") []
        = (Ret.fail 0 (Error.New "remote path not supported"), [])
    ∧ downloadCount (Opener.OpenRemote sampleEnv ⟨none⟩ (str "http://host/a.ova") []).2
        = downloadCount []
    ∧ Opener.OpenFile sampleEnv ⟨none⟩ (str "http://host/a.ova") []
        = (Ret.fail 0 (Error.New "remote path not supported"), []) :=
  have h := OpenRemote_no_client sampleEnv ⟨none⟩ (str "http://host/a.ova") [] rfl
  ⟨rfl, h.1, h.2.2.2.2.1, h.2.2.2.2.2 (Or.inl ⟨str "host/a.ova", by decide⟩)⟩

/-- C9 at the sample archive and the pattern "b.*": two entries are skipped,
the stream is not closed by Open and closed once by Close on the handle. -/
theorem TapeArchiveEntry_Close_once_witness :
    Opener.OpenFile sampleEnv ⟨none⟩ (str "a.ova") []
        = (Ret.ok sampleStream 10240, [Event.Open (str "a.ova")])
    ∧ TapeArchive.Open sampleEnv ⟨str "a.ova", ⟨none⟩⟩ (str "b.*") []
        = (Ret.ok ⟨⟨sampleStream, [60], []⟩, sampleStream, str "b.ovf"⟩ 1,
            [Event.Open (str "a.ova")])
    ∧ closeCount 1 [Event.Open (str "a.ova")] = 0
    ∧ (TapeArchiveEntry.Close ⟨⟨sampleStream, [60], []⟩, sampleStream, str "b.ovf"⟩
        [Event.Open (str "a.ova")]).2 = [Event.Open (str "a.ova")] ++ [Event.Close 1]
    ∧ closeCount 1
        (TapeArchiveEntry.Close ⟨⟨sampleStream, [60], []⟩, sampleStream, str "b.ovf"⟩
          [Event.Open (str "a.ova")]).2 = closeCount 1 [Event.Open (str "a.ova")] + 1 :=
  have h := TapeArchiveEntry_Close_once sampleEnv ⟨str "a.ova", ⟨none⟩⟩ (str "b.*") []
     [Event.Open (str "a.ova")] [Event.Open (str "a.ova")] sampleStream 10240
     ⟨⟨sampleStream, [60], []⟩, sampleStream, str "b.ovf"⟩ 1 (by decide) (by decide)
  ⟨by decide, by decide, by decide, h.2.2.2.2.2.1, h.2.2.2.2.2.2⟩

/-- C10 at the remote primary path "http://host/dir/a.ovf" and the name
"a.mf", with and without a client: the sibling goes to OpenRemote and the
file system is not touched. -/
theorem sibling_preserves_remote_witness :
    isRemotePath (str "http://host/dir/a.ovf") = true
    ∧ FileArchive.Open.fpath ⟨str "http://host/dir/a.ovf", ⟨some ⟨1⟩⟩⟩ (str "a.mf")
        = str "http://host/dir/a.mf"
    ∧ FileArchive.Open sampleEnv ⟨str "http://host/dir/a.ovf", ⟨some ⟨1⟩⟩⟩ (str "a.mf") []
        = (Ret.fail 0 (Error.other 1), [Event.Download (str "http://host/dir/a.mf")])
    ∧ FileArchive.Open sampleEnv ⟨str "http://host/dir/a.ovf", ⟨none⟩⟩ (str "a.mf") []
        = (Ret.fail 0 (Error.New "remote path not supported"), [])
    ∧ FileArchive.Open sampleEnv ⟨str "http://host/dir/a.ovf", ⟨some ⟨1⟩⟩⟩ (str "a.mf") []
        = Opener.OpenRemote sampleEnv ⟨some ⟨1⟩⟩
            (FileArchive.Open.fpath ⟨str "http://host/dir/a.ovf", ⟨some ⟨1⟩⟩⟩ (str "a.mf")) []
    ∧ openCount
        (FileArchive.Open sampleEnv ⟨str "http://host/dir/a.ovf", ⟨some ⟨1⟩⟩⟩ (str "a.mf") []).2
        = openCount [] :=
  have h := sibling_preserves_remote sampleEnv ⟨str "http://host/dir/a.ovf", ⟨some ⟨1⟩⟩⟩
    (str "a.mf") [] (by decide)
  ⟨by decide, by decide, by decide, by decide, h.2.2.2.1, h.2.2.2.2⟩

end importx
